import Mathlib

/-!
# Verification of the z-botan adaptation layer

A shallow embedding of the C adaptation layer declared in
`include/hs_botan.h`: bounds-checked buffer views, the hex codec, the
streaming cipher adapter, the big-integer codecs, and the bcrypt
adapter.  Buffers are `List Nat` of byte values (each `< 256` in
well-formed data); text is `List Nat` of ASCII codes; `HsInt`
offset/length arguments are `Int`; fallible calls return `Except Err`.
The repository ships only the interface header, so each operation is
modelled from the specification's description of its contract, as noted
on the individual definitions.
-/

/-- The host-level error classification produced by the Status
Translator (spec section 7). -/
inductive Err where
  | outOfRange
  | invalidEncoding
  | invalidKeyLength
  | invalidNonceLength
  | badState
  | bufferTooSmall
  | cryptoFailure
  | authenticationFailed
  | unknownAlgorithm
  | unknown
  deriving DecidableEq, Repr

/-- Modelled from the spec: the Bounds-Checked View (implementation not
in the shipped sources).  Given a caller buffer and an (offset, length)
pair, produce exactly that sub-range, or fail with `OutOfRange` when
`offset < 0`, `length < 0`, or `offset + length` exceeds the buffer's
capacity; no silent clamping. -/
def checkView (buf : List Nat) (off len : Int) : Except Err (List Nat) :=
  if off < 0 ∨ len < 0 ∨ (buf.length : Int) < off + len then
    .error .outOfRange
  else
    .ok ((buf.drop off.toNat).take len.toNat)

/-- ASCII code of the uppercase hex digit for a value `< 16`. -/
def hexDigitUpper (n : Nat) : Nat :=
  if n < 10 then 48 + n else 55 + n

/-- ASCII code of the lowercase hex digit for a value `< 16`. -/
def hexDigitLower (n : Nat) : Nat :=
  if n < 10 then 48 + n else 87 + n

/-- Value of a hex-digit character, accepting both cases; `none` on a
character that is not a hex digit. -/
def decodeHexDigit (c : Nat) : Option Nat :=
  if 48 ≤ c ∧ c ≤ 57 then some (c - 48)
  else if 65 ≤ c ∧ c ≤ 70 then some (c - 55)
  else if 97 ≤ c ∧ c ≤ 102 then some (c - 87)
  else none

/-- Core hex encoder: two digit characters per byte, high nibble first. -/
def hexEncodeCore (digit : Nat → Nat) (bs : List Nat) : List Nat :=
  bs.flatMap fun b => [digit (b / 16), digit (b % 16)]

/-- Core hex decoder: pairs of hex-digit characters to bytes; `none` on
odd-length input or a non-hex-digit character. -/
def hexDecodeCore : List Nat → Option (List Nat)
  | [] => some []
  | [_] => none
  | hi :: lo :: rest =>
    match decodeHexDigit hi, decodeHexDigit lo, hexDecodeCore rest with
    | some h, some l, some tail => some ((h * 16 + l) :: tail)
    | _, _, _ => none

/-- Modelled from the spec: `hs_botan_hex_encode` (implementation not in
the shipped sources).  Bounds-checks the view, encodes it as uppercase
hex text, and returns the text together with status `0`. -/
def hs_botan_hex_encode (x : List Nat) (off len : Int) :
    Except Err (List Nat × Int) :=
  (checkView x off len).map fun v => (hexEncodeCore hexDigitUpper v, 0)

/-- Modelled from the spec: `hs_botan_hex_encode_lower` (implementation
not in the shipped sources).  Lowercase variant of the hex encoder. -/
def hs_botan_hex_encode_lower (x : List Nat) (off len : Int) :
    Except Err (List Nat × Int) :=
  (checkView x off len).map fun v => (hexEncodeCore hexDigitLower v, 0)

/-- Modelled from the spec: `hs_botan_hex_decode` (implementation not in
the shipped sources).  Bounds-checks the view, rejects odd-length input
or non-hex-digit characters with `InvalidEncoding`, and otherwise
returns the decoded bytes together with the number of bytes written. -/
def hs_botan_hex_decode (hex : List Nat) (off len : Int) :
    Except Err (List Nat × Int) := do
  let v ← checkView hex off len
  match hexDecodeCore v with
  | none => .error .invalidEncoding
  | some out => .ok (out, (out.length : Int))

/-- Direction of a cipher-mode operation. -/
inductive Dir where
  | encrypt
  | decrypt
  deriving DecidableEq, Repr

/-- The Streaming Operation State machine of spec section 4.4. -/
inductive Phase where
  | fresh
  | keyBound
  | started
  | accumulating
  | finished
  deriving DecidableEq, Repr

/-- State carried by a cipher-mode Native Handle: the bound key, nonce
and associated data, the direction, the update granularity, the current
machine phase, and the ciphertext bytes seen so far (output so far for
encryption, input so far for decryption). -/
structure Cipher where
  key : List Nat
  nonce : List Nat
  ad : List Nat
  dir : Dir
  gran : Nat
  phase : Phase
  acc : List Nat
  deriving DecidableEq, Repr

/-- Length in bytes of the model's authentication tag. -/
def tagLength : Nat := 1

/-- Modelled from the spec: the native engine's keystream is opaque to
this layer (spec sections 1 and 7); any concrete byte-valued function of
key, nonce and position serves the adapter's contracts. -/
def keyStream (key nonce : List Nat) (i : Nat) : Nat :=
  (key.sum + 31 * nonce.sum + i) % 256

/-- Encrypt a plaintext chunk whose first byte sits at stream position
`n`. -/
def encBytes (key nonce : List Nat) : Nat → List Nat → List Nat
  | _, [] => []
  | n, x :: xs => ((x + keyStream key nonce n) % 256) :: encBytes key nonce (n + 1) xs

/-- Decrypt a ciphertext chunk whose first byte sits at stream position
`n`. -/
def decBytes (key nonce : List Nat) : Nat → List Nat → List Nat
  | _, [] => []
  | n, x :: xs => ((x + 256 - keyStream key nonce n) % 256) :: decBytes key nonce (n + 1) xs

/-- Modelled from the spec: the AEAD authentication tag over the full
ciphertext, bound to key, nonce and associated data. -/
def tagOf (key nonce ad ct : List Nat) : List Nat :=
  [(key.sum + nonce.sum + ad.sum + ct.sum) % 256]

/-- Modelled from the spec: `hs_botan_cipher_set_key`.  Binds key
material to a fresh handle. -/
def hs_botan_cipher_set_key (c : Cipher) (key : List Nat) : Except Err Cipher :=
  if c.phase = .fresh then .ok { c with key := key, phase := .keyBound }
  else .error .badState

/-- Modelled from the spec: `hs_botan_cipher_set_associated_data`.
Binds AEAD associated data before `start`; fails with `BadState` out of
order. -/
def hs_botan_cipher_set_associated_data (c : Cipher) (ad : List Nat) :
    Except Err Cipher :=
  if c.phase = .keyBound then .ok { c with ad := ad }
  else .error .badState

/-- Modelled from the spec: `hs_botan_cipher_start`.  Binds a nonce to a
keyed handle, transitioning KeyBound to Started. -/
def hs_botan_cipher_start (c : Cipher) (nonce : List Nat) : Except Err Cipher :=
  if c.phase = .keyBound then
    .ok { c with nonce := nonce, phase := .started, acc := [] }
  else .error .badState

/-- Modelled from the spec: the core of `hs_botan_cipher_update` on the
extracted input view.  Requires a Started or Accumulating handle and an
input whose length is a multiple of the update granularity (spec section
8, cipher update invariant), fails with `BufferTooSmall` otherwise;
writes exactly as many output bytes as it consumes and returns that
count (spec: input_consumed == output_written). -/
def cipherUpdate (c : Cipher) (input : List Nat) :
    Except Err (Cipher × List Nat × Int) :=
  if c.phase ≠ .started ∧ c.phase ≠ .accumulating then .error .badState
  else if input.length % c.gran ≠ 0 then .error .bufferTooSmall
  else
    match c.dir with
    | .encrypt =>
      let out := encBytes c.key c.nonce c.acc.length input
      .ok ({ c with phase := .accumulating, acc := c.acc ++ out }, out,
           (out.length : Int))
    | .decrypt =>
      let out := decBytes c.key c.nonce c.acc.length input
      .ok ({ c with phase := .accumulating, acc := c.acc ++ input }, out,
           (out.length : Int))

/-- Modelled from the spec: the native sizing query
`botan_cipher_output_length` for a final input of `inLen` bytes: the
worst-case number of bytes `finish` may write. -/
def botan_cipher_output_length (c : Cipher) (inLen : Nat) : Nat :=
  match c.dir with
  | .encrypt => inLen + tagLength
  | .decrypt => inLen

/-- Modelled from the spec: the core of `hs_botan_cipher_finish` on the
extracted final input view.  Encryption writes the remaining ciphertext
plus the authentication tag; decryption verifies the tag over the whole
stream, failing with `AuthenticationFailed` on mismatch, and otherwise
writes the remaining plaintext.  Returns the number of bytes actually
written, which may be less than the sizing query's value. -/
def cipherFinish (c : Cipher) (input : List Nat) :
    Except Err (Cipher × List Nat × Int) :=
  if c.phase ≠ .started ∧ c.phase ≠ .accumulating then .error .badState
  else
    match c.dir with
    | .encrypt =>
      let ct := encBytes c.key c.nonce c.acc.length input
      let out := ct ++ tagOf c.key c.nonce c.ad (c.acc ++ ct)
      .ok ({ c with phase := .finished, acc := c.acc ++ ct }, out,
           (out.length : Int))
    | .decrypt =>
      let full := c.acc ++ input
      if full.length < tagLength then .error .bufferTooSmall
      else
        let data := full.take (full.length - tagLength)
        let tg := full.drop (full.length - tagLength)
        if tg ≠ tagOf c.key c.nonce c.ad data then .error .authenticationFailed
        else
          let out := decBytes c.key c.nonce c.acc.length (data.drop c.acc.length)
          .ok ({ c with phase := .finished }, out, (out.length : Int))

/-- Modelled from the spec: `hs_botan_cipher_update` (implementation not
in the shipped sources): bounds-check the input view, then run the
streaming update step. -/
def hs_botan_cipher_update (c : Cipher) (input : List Nat) (off len : Int) :
    Except Err (Cipher × List Nat × Int) := do
  let v ← checkView input off len
  cipherUpdate c v

/-- Modelled from the spec: `hs_botan_cipher_finish` (implementation not
in the shipped sources): bounds-check the final input view, then run the
finalization step. -/
def hs_botan_cipher_finish (c : Cipher) (input : List Nat) (off len : Int) :
    Except Err (Cipher × List Nat × Int) := do
  let v ← checkView input off len
  cipherFinish c v

/-- Fuelled digit extraction, structurally recursive so that concrete
values compute. -/
def digitsRevAux (b : Nat) : Nat → Nat → List Nat
  | _, 0 => []
  | 0, _ + 1 => []
  | fuel + 1, n + 1 =>
    if b ≤ 1 then []
    else ((n + 1) % b) :: digitsRevAux b fuel ((n + 1) / b)

/-- Digits of `n` in base `b`, least significant first; `[]` for zero or
for a degenerate base. -/
def digitsRev (b n : Nat) : List Nat := digitsRevAux b n n

/-- Value of a decimal-digit character; `none` otherwise. -/
def decodeDecDigit (c : Nat) : Option Nat :=
  if 48 ≤ c ∧ c ≤ 57 then some (c - 48) else none

/-- Most-significant-first positional parse with accumulator; `none` as
soon as a character fails to decode. -/
def parseDigitsAcc (b : Nat) (dec : Nat → Option Nat) (acc : Nat) :
    List Nat → Option Nat
  | [] => some acc
  | c :: cs =>
    match dec c with
    | none => none
    | some d => parseDigitsAcc b dec (acc * b + d) cs

/-- Hexadecimal text (uppercase, most significant digit first) of a
big-integer value; zero prints as the single character `0`. -/
def mpHexText (n : Nat) : List Nat :=
  if n = 0 then [48] else (digitsRev 16 n).reverse.map hexDigitUpper

/-- Decimal text of a big-integer value; zero prints as `0`. -/
def mpDecText (n : Nat) : List Nat :=
  if n = 0 then [48] else (digitsRev 10 n).reverse.map fun d => 48 + d

/-- Big-endian binary form of a big-integer value: exactly its byte
length, no leading zero bytes. -/
def mpBin (n : Nat) : List Nat := (digitsRev 256 n).reverse

/-- Parse hexadecimal text into a big-integer value; `none` on empty or
non-hex-digit text. -/
def mpFromHexCore (cs : List Nat) : Option Nat :=
  if cs.isEmpty then none else parseDigitsAcc 16 decodeHexDigit 0 cs

/-- Parse decimal text into a big-integer value; `none` on empty or
non-decimal-digit text. -/
def mpFromDecCore (cs : List Nat) : Option Nat :=
  if cs.isEmpty then none else parseDigitsAcc 10 decodeDecDigit 0 cs

/-- Big-endian binary to big-integer value; every byte list is valid. -/
def mpFromBin (bs : List Nat) : Nat := bs.foldl (fun a d => a * 256 + d) 0

/-- Overlay `data` onto `buf` starting at position `off`, leaving the
rest of the buffer unchanged. -/
def writeAt (buf : List Nat) (off : Nat) (data : List Nat) : List Nat :=
  buf.take off ++ data ++ buf.drop (off + data.length)

/-- Modelled from the spec: `hs_botan_mp_to_hex` (implementation not in
the shipped sources).  Writes the hexadecimal text of the handle's value
into the caller's buffer at `off` and reports the exact number of
characters written. -/
def hs_botan_mp_to_hex (mp : Nat) (out : List Nat) (off : Int) :
    List Nat × Int :=
  (writeAt out off.toNat (mpHexText mp), ((mpHexText mp).length : Int))

/-- Modelled from the spec: `hs_botan_mp_to_dec` (implementation not in
the shipped sources).  Decimal variant of the textual output routine. -/
def hs_botan_mp_to_dec (mp : Nat) (out : List Nat) (off : Int) :
    List Nat × Int :=
  (writeAt out off.toNat (mpDecText mp), ((mpDecText mp).length : Int))

/-- Modelled from the spec: `hs_botan_mp_to_bin` (implementation not in
the shipped sources).  Writes the big-endian bytes of the value at
`off`. -/
def hs_botan_mp_to_bin (mp : Nat) (out : List Nat) (off : Int) :
    List Nat × Int :=
  (writeAt out off.toNat (mpBin mp), ((mpBin mp).length : Int))

/-- Modelled from the spec: `hs_botan_mp_set_from_hex` (implementation
not in the shipped sources).  Bounds-checks the text view and parses it,
failing with `InvalidEncoding` on malformed text; returns the parsed
value standing for the updated destination handle. -/
def hs_botan_mp_set_from_hex (str : List Nat) (off len : Int) :
    Except Err Nat := do
  let v ← checkView str off len
  match mpFromHexCore v with
  | none => .error .invalidEncoding
  | some n => .ok n

/-- Modelled from the spec: `hs_botan_mp_set_from_dec` (implementation
not in the shipped sources).  Decimal variant of the textual parse. -/
def hs_botan_mp_set_from_dec (str : List Nat) (off len : Int) :
    Except Err Nat := do
  let v ← checkView str off len
  match mpFromDecCore v with
  | none => .error .invalidEncoding
  | some n => .ok n

/-- Modelled from the spec: `hs_botan_mp_from_bin` (implementation not
in the shipped sources).  Bounds-checks the byte view and loads it
big-endian into the destination handle. -/
def hs_botan_mp_from_bin (vec : List Nat) (off len : Int) :
    Except Err Nat := do
  let v ← checkView vec off len
  .ok (mpFromBin v)

/-- The boolean-like status distinguishing valid, invalid and malformed
hash reported by bcrypt verification (spec section 4.3). -/
inductive BcryptStatus where
  | valid
  | invalid
  | malformed
  deriving DecidableEq, Repr

/-- Modelled from the spec: the salt bytes the native engine draws from
the RNG handle; the RNG is modelled as a seed value. -/
def bcryptSalt (rng : Nat) : List Nat := digitsRev 256 rng

/-- Modelled from the spec: the native engine's bcrypt digest is opaque
to this layer; the model uses a digest that is injective in the password
for a fixed salt and work factor, which is the behaviour the adapter
contract relies on. -/
def bcryptDigest (pwd salt : List Nat) (wf : Nat) : List Nat :=
  pwd ++ salt ++ [wf % 256]

/-- Modelled from the spec: `hs_botan_bcrypt_generate` (implementation
not in the shipped sources).  Produces the textual hash: work factor,
salt length, salt bytes, then the digest. -/
def hs_botan_bcrypt_generate (pwd : List Nat) (rng : Nat) (workFactor : Nat) :
    List Nat :=
  let salt := bcryptSalt rng
  (workFactor % 256) :: salt.length :: (salt ++ bcryptDigest pwd salt workFactor)

/-- Modelled from the spec: `hs_botan_bcrypt_is_valid` (implementation
not in the shipped sources).  Parses the hash text and recomputes the
digest for the offered password: `valid` on match, `invalid` on
mismatch, `malformed` when the hash cannot be parsed. -/
def hs_botan_bcrypt_is_valid (pwd : List Nat) (hash : List Nat) :
    BcryptStatus :=
  match hash with
  | wf :: k :: rest =>
    if k ≤ rest.length then
      if rest.drop k = bcryptDigest pwd (rest.take k) wf then .valid
      else .invalid
    else .malformed
  | _ => .malformed

/-- Value of a least-significant-first digit list. -/
def valRev (b : Nat) : List Nat → Nat
  | [] => 0
  | d :: ds => d + b * valRev b ds

/-- A concrete Started decryption handle used in concrete instances. -/
def decCipher0 : Cipher :=
  { key := [], nonce := [], ad := [], dir := .decrypt, gran := 1,
    phase := .started, acc := [] }

/-- A cipher handle in the Started state with the given parameters, as
reached through set_key, set_associated_data and start. -/
def mkStarted (key nonce ad : List Nat) (d : Dir) (g : Nat) : Cipher :=
  { key := key, nonce := nonce, ad := ad, dir := d, gran := g,
    phase := .started, acc := [] }

/-- A whole-buffer view always passes the bounds check and extracts the
buffer itself. -/
theorem checkView_full (l : List Nat) : checkView l 0 (l.length : Int) = .ok l := by
  simp [checkView]

/-- C3: an (offset, length) pair within the buffer's capacity passes the
bounds check and yields exactly that sub-range with no clamping; a pair
with a negative offset, a negative length, or `offset + length` beyond
the capacity fails with `OutOfRange`. -/
theorem checkView_in_bounds_iff (buf : List Nat) (off len : Int) :
    (0 ≤ off ∧ 0 ≤ len ∧ off + len ≤ (buf.length : Int) ↔
      checkView buf off len = .ok ((buf.drop off.toNat).take len.toNat)) ∧
    (off < 0 ∨ len < 0 ∨ (buf.length : Int) < off + len ↔
      checkView buf off len = .error .outOfRange) ∧
    (∀ v, checkView buf off len = .ok v →
      v = (buf.drop off.toNat).take len.toNat ∧ (v.length : Int) = len) := by
  by_cases hc : off < 0 ∨ len < 0 ∨ (buf.length : Int) < off + len
  · refine ⟨⟨fun h => absurd hc (by omega), fun h => ?_⟩,
      ⟨fun _ => by simp [checkView, hc], fun _ => hc⟩, fun v hv => ?_⟩
    · simp [checkView, hc] at h
    · simp [checkView, hc] at hv
  · refine ⟨⟨fun _ => by simp [checkView, hc], fun _ => by omega⟩,
      ⟨fun h => absurd h hc, fun h => ?_⟩, fun v hv => ?_⟩
    · simp [checkView, hc] at h
    · simp [checkView, hc] at hv
      subst hv
      constructor
      · rfl
      · simp [List.length_take, List.length_drop]
        omega

/-- Witness for C3 at concrete inputs. -/
theorem checkView_in_bounds_iff_witness :
    checkView [10, 20, 30] 1 2 =
      .ok (([10, 20, 30].drop (1 : Int).toNat).take (2 : Int).toNat) ∧
    checkView [10, 20, 30] 2 2 = .error .outOfRange :=
  ⟨(checkView_in_bounds_iff [10, 20, 30] 1 2).1.mp (by norm_num),
   (checkView_in_bounds_iff [10, 20, 30] 2 2).2.1.mp (by norm_num)⟩

/-- C10: the hex codec entry points are deterministic pure functions of
their arguments — equal argument triples give identical outputs — and
their result depends only on the extracted view: two in-bounds calls
whose views extract the same bytes give identical outputs. -/
theorem hex_codec_deterministic :
    (∀ x1 x2 : List Nat, ∀ off1 off2 len1 len2 : Int,
      x1 = x2 → off1 = off2 → len1 = len2 →
      hs_botan_hex_encode x1 off1 len1 = hs_botan_hex_encode x2 off2 len2 ∧
      hs_botan_hex_encode_lower x1 off1 len1 =
        hs_botan_hex_encode_lower x2 off2 len2 ∧
      hs_botan_hex_decode x1 off1 len1 = hs_botan_hex_decode x2 off2 len2) ∧
    (∀ x1 x2 : List Nat, ∀ off1 off2 len1 len2 : Int, ∀ v : List Nat,
      checkView x1 off1 len1 = .ok v → checkView x2 off2 len2 = .ok v →
      hs_botan_hex_encode x1 off1 len1 = hs_botan_hex_encode x2 off2 len2 ∧
      hs_botan_hex_encode_lower x1 off1 len1 =
        hs_botan_hex_encode_lower x2 off2 len2 ∧
      hs_botan_hex_decode x1 off1 len1 = hs_botan_hex_decode x2 off2 len2) := by
  constructor
  · rintro x1 x2 off1 off2 len1 len2 rfl rfl rfl
    exact ⟨rfl, rfl, rfl⟩
  · intro x1 x2 off1 off2 len1 len2 v h1 h2
    refine ⟨?_, ?_, ?_⟩
    · simp [hs_botan_hex_encode, h1, h2]
    · simp [hs_botan_hex_encode_lower, h1, h2]
    · simp [hs_botan_hex_decode, h1, h2]

/-- Witness for C10 at concrete inputs: the same call repeated, and two
different buffers carrying the same view. -/
theorem hex_codec_deterministic_witness :
    (hs_botan_hex_decode [97, 66, 48, 49] 0 4 =
      hs_botan_hex_decode [97, 66, 48, 49] 0 4) ∧
    (hs_botan_hex_encode [9, 171, 7] 1 1 = hs_botan_hex_encode [171] 0 1) :=
  ⟨(hex_codec_deterministic.1 [97, 66, 48, 49] [97, 66, 48, 49] 0 0 4 4
      rfl rfl rfl).2.2,
   (hex_codec_deterministic.2 [9, 171, 7] [171] 1 0 1 1 [171] rfl rfl).1⟩

/-- Decoding inverts the uppercase digit encoder on nibble values. -/
theorem decodeHexDigit_upper : ∀ d < 16, decodeHexDigit (hexDigitUpper d) = some d := by
  decide

/-- Decoding inverts the lowercase digit encoder on nibble values. -/
theorem decodeHexDigit_lower : ∀ d < 16, decodeHexDigit (hexDigitLower d) = some d := by
  decide

/-- The core decoder inverts the core encoder on byte lists, for any
digit alphabet the decoder recognizes. -/
theorem hexDecodeCore_hexEncodeCore (digit : Nat → Nat)
    (hdig : ∀ d, d < 16 → decodeHexDigit (digit d) = some d) :
    ∀ bs : List Nat, (∀ b ∈ bs, b < 256) →
      hexDecodeCore (hexEncodeCore digit bs) = some bs
  | [], _ => rfl
  | b :: bs, hb => by
    have hmem : b < 256 := hb b (List.mem_cons_self b bs)
    have hrest : hexDecodeCore (hexEncodeCore digit bs) = some bs :=
      hexDecodeCore_hexEncodeCore digit hdig bs
        (fun x hx => hb x (List.mem_cons_of_mem b hx))
    have h1 : decodeHexDigit (digit (b / 16)) = some (b / 16) :=
      hdig (b / 16) (by omega)
    have h2 : decodeHexDigit (digit (b % 16)) = some (b % 16) :=
      hdig (b % 16) (by omega)
    have henc : hexEncodeCore digit (b :: bs) =
        digit (b / 16) :: digit (b % 16) :: hexEncodeCore digit bs := by
      simp [hexEncodeCore]
    rw [henc, hexDecodeCore, h1, h2, hrest]
    have hbv : b / 16 * 16 + b % 16 = b := by omega
    show some ((b / 16 * 16 + b % 16) :: bs) = some (b :: bs)
    rw [hbv]

/-- The core encoder writes two characters per byte. -/
theorem hexEncodeCore_length (digit : Nat → Nat) :
    ∀ bs : List Nat, (hexEncodeCore digit bs).length = 2 * bs.length
  | [] => rfl
  | b :: bs => by
    have ih := hexEncodeCore_length digit bs
    simp [hexEncodeCore] at ih ⊢
    omega

/-- C4: hex decoding the output of hex encoding returns the original
byte sequence, for the lowercase and the uppercase encoder alike, at the
level of the exported entry points. -/
theorem hex_encode_decode_roundtrip (b : List Nat) (hb : ∀ x ∈ b, x < 256) :
    (∃ cs : List Nat, hs_botan_hex_encode_lower b 0 (b.length : Int) =
        .ok (cs, 0) ∧
      hs_botan_hex_decode cs 0 (cs.length : Int) = .ok (b, (b.length : Int))) ∧
    (∃ cs : List Nat, hs_botan_hex_encode b 0 (b.length : Int) = .ok (cs, 0) ∧
      hs_botan_hex_decode cs 0 (cs.length : Int) = .ok (b, (b.length : Int))) := by
  constructor
  · refine ⟨hexEncodeCore hexDigitLower b, ?_, ?_⟩
    · simp [hs_botan_hex_encode_lower, checkView_full, Except.map]
    · simp [hs_botan_hex_decode, checkView_full, bind, Except.bind,
        hexDecodeCore_hexEncodeCore hexDigitLower decodeHexDigit_lower b hb]
  · refine ⟨hexEncodeCore hexDigitUpper b, ?_, ?_⟩
    · simp [hs_botan_hex_encode, checkView_full, Except.map]
    · simp [hs_botan_hex_decode, checkView_full, bind, Except.bind,
        hexDecodeCore_hexEncodeCore hexDigitUpper decodeHexDigit_upper b hb]

/-- Witness for C4 at a concrete byte sequence. -/
theorem hex_encode_decode_roundtrip_witness :
    ∃ cs : List Nat, hs_botan_hex_encode_lower [171, 0, 255] 0 3 =
        .ok (cs, 0) ∧
      hs_botan_hex_decode cs 0 (cs.length : Int) = .ok ([171, 0, 255], 3) :=
  (hex_encode_decode_roundtrip [171, 0, 255] (by decide)).1

/-- The core decoder fails exactly on odd-length input or input holding
a non-hex-digit character. -/
theorem hexDecodeCore_none_iff :
    ∀ cs : List Nat, (hexDecodeCore cs = none ↔
      cs.length % 2 = 1 ∨ ∃ c ∈ cs, decodeHexDigit c = none)
  | [] => by simp [hexDecodeCore]
  | [a] => by simp [hexDecodeCore]
  | a :: b :: rest => by
    have ih := hexDecodeCore_none_iff rest
    have hlen2 : (a :: b :: rest).length = rest.length + 2 := by simp
    constructor
    · intro h
      rw [hexDecodeCore] at h
      cases ha : decodeHexDigit a with
      | none => exact Or.inr ⟨a, by simp, ha⟩
      | some x =>
        cases hb : decodeHexDigit b with
        | none => exact Or.inr ⟨b, by simp, hb⟩
        | some y =>
          cases hr : hexDecodeCore rest with
          | none =>
            rcases ih.mp hr with hl | ⟨c, hc, hcn⟩
            · left
              rw [hlen2]
              omega
            · exact Or.inr ⟨c, by simp [hc], hcn⟩
          | some out =>
            rw [ha, hb, hr] at h
            all_goals simp at h
    · intro h
      rw [hexDecodeCore]
      rcases h with hl | ⟨c, hc, hcn⟩
      · have hrl : rest.length % 2 = 1 := by
          rw [hlen2] at hl
          omega
        rw [ih.mpr (Or.inl hrl)]
        cases decodeHexDigit a <;> cases decodeHexDigit b <;> rfl
      · simp only [List.mem_cons] at hc
        rcases hc with rfl | rfl | hc
        · rw [hcn]
        · rw [hcn]
          all_goals cases decodeHexDigit a <;> cases hexDecodeCore rest <;> rfl
        · rw [ih.mpr (Or.inr ⟨c, hc, hcn⟩)]
          cases decodeHexDigit a <;> cases decodeHexDigit b <;> rfl

/-- C5: `hs_botan_hex_decode` on a valid input view fails with
`InvalidEncoding` exactly when the view has odd length or holds a
character that is not a hex digit; on every other view it succeeds and
returns the number of binary bytes written. -/
theorem hex_decode_invalid_iff (hex : List Nat) (off len : Int) (v : List Nat)
    (hv : checkView hex off len = .ok v) :
    (hs_botan_hex_decode hex off len = .error .invalidEncoding ↔
      v.length % 2 = 1 ∨ ∃ c ∈ v, decodeHexDigit c = none) ∧
    (¬(v.length % 2 = 1 ∨ ∃ c ∈ v, decodeHexDigit c = none) →
      ∃ out : List Nat, hs_botan_hex_decode hex off len =
        .ok (out, (out.length : Int))) := by
  constructor
  · constructor
    · intro h
      rw [← hexDecodeCore_none_iff]
      simp only [hs_botan_hex_decode, hv, bind, Except.bind] at h
      cases hcore : hexDecodeCore v with
      | none => rfl
      | some out =>
        rw [hcore] at h
        exact absurd h (by simp)
    · intro h
      have hcore : hexDecodeCore v = none := (hexDecodeCore_none_iff v).mpr h
      simp [hs_botan_hex_decode, hv, bind, Except.bind, hcore]
  · intro h
    rw [← hexDecodeCore_none_iff] at h
    cases hcore : hexDecodeCore v with
    | none => exact absurd hcore h
    | some out =>
      exact ⟨out, by simp [hs_botan_hex_decode, hv, bind, Except.bind, hcore]⟩

/-- Witness for C5: a valid view decoding successfully, via the theorem
applied at concrete inputs. -/
theorem hex_decode_invalid_iff_witness :
    ∃ out : List Nat, hs_botan_hex_decode [70, 70, 48, 49] 0 4 =
      .ok (out, (out.length : Int)) :=
  (hex_decode_invalid_iff [70, 70, 48, 49] 0 4 [70, 70, 48, 49] rfl).2
    (by decide)

/-- The encrypting transform preserves length. -/
theorem encBytes_length (key nonce : List Nat) :
    ∀ (n : Nat) (p : List Nat), (encBytes key nonce n p).length = p.length
  | _, [] => rfl
  | n, _ :: xs => by
    rw [encBytes, List.length_cons, List.length_cons,
      encBytes_length key nonce (n + 1) xs]

/-- The decrypting transform preserves length. -/
theorem decBytes_length (key nonce : List Nat) :
    ∀ (n : Nat) (c : List Nat), (decBytes key nonce n c).length = c.length
  | _, [] => rfl
  | n, _ :: xs => by
    rw [decBytes, List.length_cons, List.length_cons,
      decBytes_length key nonce (n + 1) xs]

/-- Every byte the encrypting transform produces is below 256. -/
theorem encBytes_lt (key nonce : List Nat) :
    ∀ (n : Nat) (p : List Nat), ∀ y ∈ encBytes key nonce n p, y < 256
  | _, [], y, hy => by simp [encBytes] at hy
  | n, x :: xs, y, hy => by
    rw [encBytes, List.mem_cons] at hy
    rcases hy with rfl | hy
    · exact Nat.mod_lt _ (by omega)
    · exact encBytes_lt key nonce (n + 1) xs y hy

/-- C1: on a Started handle and an input view whose length is a
multiple of the update granularity, `hs_botan_cipher_update` succeeds,
writes exactly as many output bytes as the input bytes it consumed, and
its return value equals the input length. -/
theorem cipher_update_io_accounting (c : Cipher) (input : List Nat)
    (off len : Int) (v : List Nat)
    (hp : c.phase = .started)
    (hv : checkView input off len = .ok v)
    (hg : v.length % c.gran = 0) :
    ∃ (c2 : Cipher) (out : List Nat),
      hs_botan_cipher_update c input off len = .ok (c2, out, (v.length : Int)) ∧
      out.length = v.length := by
  have hnotbad : ¬(c.phase ≠ Phase.started ∧ c.phase ≠ Phase.accumulating) := by
    simp [hp]
  cases hdir : c.dir with
  | encrypt =>
    refine ⟨{ c with
                phase := .accumulating,
                acc := c.acc ++ encBytes c.key c.nonce c.acc.length v },
      encBytes c.key c.nonce c.acc.length v, ?_, encBytes_length _ _ _ _⟩
    simp [hs_botan_cipher_update, hv, bind, Except.bind, cipherUpdate,
      hnotbad, hg, hdir, encBytes_length]
  | decrypt =>
    refine ⟨{ c with phase := .accumulating, acc := c.acc ++ v },
      decBytes c.key c.nonce c.acc.length v, ?_, decBytes_length _ _ _ _⟩
    simp [hs_botan_cipher_update, hv, bind, Except.bind, cipherUpdate,
      hnotbad, hg, hdir, decBytes_length]

/-- Witness for C1 at a concrete Started cipher and concrete input. -/
theorem cipher_update_io_accounting_witness :
    ∃ (c2 : Cipher) (out : List Nat),
      hs_botan_cipher_update
        { key := [1], nonce := [2], ad := [], dir := .encrypt, gran := 2,
          phase := .started, acc := [] } [10, 20, 30, 40] 0 4 =
        .ok (c2, out, (([10, 20, 30, 40] : List Nat).length : Int)) ∧
      out.length = ([10, 20, 30, 40] : List Nat).length :=
  cipher_update_io_accounting
    { key := [1], nonce := [2], ad := [], dir := .encrypt, gran := 2,
      phase := .started, acc := [] } [10, 20, 30, 40] 0 4 [10, 20, 30, 40]
    rfl rfl (by decide)

/-- C2: whenever `hs_botan_cipher_finish` succeeds on a final input
view, its return value is the number of bytes it wrote, and that number
never exceeds the value reported by the `botan_cipher_output_length`
query for the view's length; and it can be strictly less, as the
decryption instance in the second conjunct shows. -/
theorem cipher_finish_output_bound :
    (∀ (c : Cipher) (input : List Nat) (off len : Int) (v : List Nat)
       (c2 : Cipher) (out : List Nat) (r : Int),
      checkView input off len = .ok v →
      hs_botan_cipher_finish c input off len = .ok (c2, out, r) →
      r = (out.length : Int) ∧
        out.length ≤ botan_cipher_output_length c v.length) ∧
    (∃ (c : Cipher) (input : List Nat) (c2 : Cipher) (out : List Nat) (r : Int),
      hs_botan_cipher_finish c input 0 (input.length : Int) =
        .ok (c2, out, r) ∧
      out.length < botan_cipher_output_length c input.length) := by
  constructor
  · intro c input off len v c2 out r hv hfin
    simp only [hs_botan_cipher_finish, hv, bind, Except.bind] at hfin
    rw [cipherFinish] at hfin
    by_cases hbad : c.phase ≠ Phase.started ∧ c.phase ≠ Phase.accumulating
    · rw [if_pos hbad] at hfin
      exact absurd hfin (by simp)
    · rw [if_neg hbad] at hfin
      cases hdir : c.dir with
      | encrypt =>
        rw [hdir] at hfin
        simp only [Except.ok.injEq, Prod.mk.injEq] at hfin
        obtain ⟨-, hout, hr⟩ := hfin
        subst hout
        subst hr
        refine ⟨rfl, ?_⟩
        simp [botan_cipher_output_length, hdir, tagOf, tagLength,
          encBytes_length]
      | decrypt =>
        rw [hdir] at hfin
        by_cases hsmall : (c.acc ++ v).length < tagLength
        · rw [if_pos hsmall] at hfin
          exact absurd hfin (by simp)
        · rw [if_neg hsmall] at hfin
          by_cases htag : (c.acc ++ v).drop ((c.acc ++ v).length - tagLength) ≠
              tagOf c.key c.nonce c.ad
                ((c.acc ++ v).take ((c.acc ++ v).length - tagLength))
          · rw [if_pos htag] at hfin
            exact absurd hfin (by simp)
          · rw [if_neg htag] at hfin
            simp only [Except.ok.injEq, Prod.mk.injEq] at hfin
            obtain ⟨-, hout, hr⟩ := hfin
            subst hout
            subst hr
            refine ⟨rfl, ?_⟩
            rw [decBytes_length, botan_cipher_output_length, hdir]
            simp only [List.length_drop, List.length_take, List.length_append,
              tagLength]
            omega
  · refine ⟨decCipher0, [0], { decCipher0 with phase := .finished }, [], 0,
      ?_, ?_⟩
    · rfl
    · simp [botan_cipher_output_length, decCipher0, tagLength]

/-- Witness for C2: the universal conjunct applied at a concrete
successful decryption finish. -/
theorem cipher_finish_output_bound_witness :
    (0 : Int) = (([] : List Nat).length : Int) ∧
    ([] : List Nat).length ≤
      botan_cipher_output_length decCipher0 ([0] : List Nat).length :=
  cipher_finish_output_bound.1 decCipher0 [0] 0 1 [0]
    { decCipher0 with phase := .finished } [] 0 rfl rfl

/-- Digit extraction ignores the exact fuel once it covers the value. -/
theorem digitsRevAux_fuel (b : Nat) :
    ∀ f1 : Nat, ∀ f2 n : Nat, n ≤ f1 → n ≤ f2 →
      digitsRevAux b f1 n = digitsRevAux b f2 n
  | 0, f2, n, h1, _ => by
    interval_cases n
    cases f2 <;> rfl
  | f1 + 1, f2, n, h1, h2 => by
    cases n with
    | zero => cases f2 <;> rfl
    | succ m =>
      cases f2 with
      | zero => omega
      | succ f2m =>
        rw [digitsRevAux, digitsRevAux]
        by_cases hb : b ≤ 1
        · rw [if_pos hb, if_pos hb]
        · rw [if_neg hb, if_neg hb]
          have hdiv : (m + 1) / b ≤ f1 := by
            have := Nat.div_lt_self (show 0 < m + 1 by omega) (by omega : 1 < b)
            omega
          have hdiv2 : (m + 1) / b ≤ f2m := by
            have := Nat.div_lt_self (show 0 < m + 1 by omega) (by omega : 1 < b)
            omega
          rw [digitsRevAux_fuel b f1 f2m ((m + 1) / b) hdiv hdiv2]

/-- Unfolding equation for `digitsRev` on a positive value and a real
base. -/
theorem digitsRev_succ (b n : Nat) (hb : 2 ≤ b) :
    digitsRev b (n + 1) = ((n + 1) % b) :: digitsRev b ((n + 1) / b) := by
  rw [digitsRev, digitsRevAux, if_neg (by omega : ¬b ≤ 1)]
  rw [digitsRev]
  have hdiv : (n + 1) / b ≤ n := by
    have := Nat.div_lt_self (show 0 < n + 1 by omega) (by omega : 1 < b)
    omega
  rw [digitsRevAux_fuel b n ((n + 1) / b) ((n + 1) / b) hdiv le_rfl]

/-- The digit list of `n` evaluates back to `n`. -/
theorem valRev_digitsRev (b : Nat) (hb : 2 ≤ b) :
    ∀ n : Nat, valRev b (digitsRev b n) = n := by
  intro n
  induction n using Nat.strong_induction_on with
  | _ n ih =>
    match n with
    | 0 => rfl
    | m + 1 =>
      rw [digitsRev_succ b m hb, valRev,
        ih ((m + 1) / b) (Nat.div_lt_self (show 0 < m + 1 by omega) (by omega : 1 < b))]
      exact Nat.mod_add_div (m + 1) b

/-- Every extracted digit is below the base. -/
theorem digitsRev_lt (b : Nat) (hb : 2 ≤ b) :
    ∀ n : Nat, ∀ d ∈ digitsRev b n, d < b := by
  intro n
  induction n using Nat.strong_induction_on with
  | _ n ih =>
    match n with
    | 0 => intro d hd; simp [digitsRev, digitsRevAux] at hd
    | m + 1 =>
      intro d hd
      rw [digitsRev_succ b m hb, List.mem_cons] at hd
      rcases hd with rfl | hd
      · exact Nat.mod_lt _ (by omega)
      · exact ih ((m + 1) / b)
          (Nat.div_lt_self (show 0 < m + 1 by omega) (by omega : 1 < b)) d hd

/-- The digit list of a positive value is nonempty. -/
theorem digitsRev_ne_nil (b n : Nat) (hb : 2 ≤ b) :
    digitsRev b (n + 1) ≠ [] := by
  rw [digitsRev_succ b n hb]
  exact List.cons_ne_nil _ _

/-- Positional parsing of an encoded digit list succeeds and folds the
digits into the accumulator. -/
theorem parseDigitsAcc_map (b : Nat) (dec : Nat → Option Nat)
    (enc : Nat → Nat) (hde : ∀ d, d < b → dec (enc d) = some d) :
    ∀ (ds : List Nat) (acc : Nat), (∀ d ∈ ds, d < b) →
      parseDigitsAcc b dec acc (ds.map enc) =
        some (ds.foldl (fun a d => a * b + d) acc)
  | [], acc, _ => rfl
  | d :: ds, acc, hds => by
    rw [List.map_cons, parseDigitsAcc, hde d (hds d (List.mem_cons_self d ds)),
      List.foldl_cons]
    exact parseDigitsAcc_map b dec enc hde ds (acc * b + d)
      fun x hx => hds x (List.mem_cons_of_mem d hx)

/-- Folding most-significant-first over the reverse of a digit list. -/
theorem foldl_horner_reverse (b : Nat) :
    ∀ (ds : List Nat) (acc : Nat),
      ds.reverse.foldl (fun a d => a * b + d) acc =
        acc * b ^ ds.length + valRev b ds
  | [], acc => by simp [valRev]
  | d :: ds, acc => by
    rw [List.reverse_cons, List.foldl_append, foldl_horner_reverse b ds acc,
      List.foldl_cons, List.foldl_nil, valRev, List.length_cons]
    ring

/-- Decoding inverts the decimal digit encoder on digit values. -/
theorem decodeDecDigit_enc : ∀ d < 10, decodeDecDigit (48 + d) = some d := by
  decide

/-- Core hexadecimal round-trip for big-integer values. -/
theorem mpFromHexCore_mpHexText (n : Nat) :
    mpFromHexCore (mpHexText n) = some n := by
  cases n with
  | zero => rfl
  | succ m =>
    rw [mpHexText, if_neg (Nat.succ_ne_zero m)]
    have hne : digitsRev 16 (m + 1) ≠ [] := digitsRev_ne_nil 16 m (by omega)
    rw [mpFromHexCore, if_neg (by simp [hne])]
    rw [parseDigitsAcc_map 16 decodeHexDigit hexDigitUpper decodeHexDigit_upper
      (digitsRev 16 (m + 1)).reverse 0
      (fun d hd => digitsRev_lt 16 (by omega) (m + 1) d
        (List.mem_reverse.mp hd))]
    rw [foldl_horner_reverse 16 (digitsRev 16 (m + 1)) 0,
      valRev_digitsRev 16 (by omega) (m + 1)]
    simp

/-- Core decimal round-trip for big-integer values. -/
theorem mpFromDecCore_mpDecText (n : Nat) :
    mpFromDecCore (mpDecText n) = some n := by
  cases n with
  | zero => rfl
  | succ m =>
    rw [mpDecText, if_neg (Nat.succ_ne_zero m)]
    have hne : digitsRev 10 (m + 1) ≠ [] := digitsRev_ne_nil 10 m (by omega)
    rw [mpFromDecCore, if_neg (by simp [hne])]
    rw [parseDigitsAcc_map 10 decodeDecDigit (fun d => 48 + d)
      decodeDecDigit_enc (digitsRev 10 (m + 1)).reverse 0
      (fun d hd => digitsRev_lt 10 (by omega) (m + 1) d
        (List.mem_reverse.mp hd))]
    rw [foldl_horner_reverse 10 (digitsRev 10 (m + 1)) 0,
      valRev_digitsRev 10 (by omega) (m + 1)]
    simp

/-- Core binary round-trip for big-integer values. -/
theorem mpFromBin_mpBin (n : Nat) : mpFromBin (mpBin n) = n := by
  rw [mpBin, mpFromBin, foldl_horner_reverse 256 (digitsRev 256 n) 0,
    valRev_digitsRev 256 (by omega) n]
  simp

/-- C6: converting a big-integer value to hexadecimal text, decimal
text, or big-endian binary and parsing it back through the exported
entry points yields the value again, for every value. -/
theorem mp_codec_roundtrip (n : Nat) :
    hs_botan_mp_set_from_hex (mpHexText n) 0 ((mpHexText n).length : Int) =
      .ok n ∧
    hs_botan_mp_set_from_dec (mpDecText n) 0 ((mpDecText n).length : Int) =
      .ok n ∧
    hs_botan_mp_from_bin (mpBin n) 0 ((mpBin n).length : Int) = .ok n := by
  refine ⟨?_, ?_, ?_⟩
  · simp [hs_botan_mp_set_from_hex, checkView_full, bind, Except.bind,
      mpFromHexCore_mpHexText]
  · simp [hs_botan_mp_set_from_dec, checkView_full, bind, Except.bind,
      mpFromDecCore_mpDecText]
  · simp [hs_botan_mp_from_bin, checkView_full, bind, Except.bind,
      mpFromBin_mpBin]

/-- Overlaying data at `off` inside a large enough buffer leaves exactly
that data readable at `off` and preserves the buffer's length. -/
theorem writeAt_region (buf : List Nat) (off : Nat) (data : List Nat)
    (h : off + data.length ≤ buf.length) :
    ((writeAt buf off data).drop off).take data.length = data ∧
    (writeAt buf off data).length = buf.length := by
  have htake : (buf.take off).length = off := by
    simp [List.length_take]
    omega
  constructor
  · rw [writeAt, List.append_assoc, List.drop_left' htake,
      List.take_left' rfl]
  · simp [writeAt]
    omega

/-- C7: on success (a non-negative offset and a buffer large enough for
the text, as sized by a preceding length query) `hs_botan_mp_to_hex` and
`hs_botan_mp_to_dec` each return exactly the number of characters they
wrote: the return value counts the characters, and the buffer region of
that size at the offset holds exactly the produced text. -/
theorem mp_to_text_reports_exact_count (n : Nat) (out : List Nat) (off : Int)
    (_hoff : 0 ≤ off)
    (hhex : off.toNat + (mpHexText n).length ≤ out.length)
    (hdec : off.toNat + (mpDecText n).length ≤ out.length) :
    ((hs_botan_mp_to_hex n out off).2 = ((mpHexText n).length : Int) ∧
      (((hs_botan_mp_to_hex n out off).1.drop off.toNat).take
        (hs_botan_mp_to_hex n out off).2.toNat = mpHexText n)) ∧
    ((hs_botan_mp_to_dec n out off).2 = ((mpDecText n).length : Int) ∧
      (((hs_botan_mp_to_dec n out off).1.drop off.toNat).take
        (hs_botan_mp_to_dec n out off).2.toNat = mpDecText n)) := by
  refine ⟨⟨rfl, ?_⟩, ⟨rfl, ?_⟩⟩
  · have hr := writeAt_region out off.toNat (mpHexText n) hhex
    simpa [hs_botan_mp_to_hex] using hr.1
  · have hr := writeAt_region out off.toNat (mpDecText n) hdec
    simpa [hs_botan_mp_to_dec] using hr.1

/-- Witness for C7 at a concrete value and buffer. -/
theorem mp_to_text_reports_exact_count_witness :
    ((hs_botan_mp_to_hex 255 [0, 0, 0, 0] 1).2 =
        ((mpHexText 255).length : Int) ∧
      (((hs_botan_mp_to_hex 255 [0, 0, 0, 0] 1).1.drop (1 : Int).toNat).take
        (hs_botan_mp_to_hex 255 [0, 0, 0, 0] 1).2.toNat = mpHexText 255)) ∧
    ((hs_botan_mp_to_dec 255 [0, 0, 0, 0] 1).2 =
        ((mpDecText 255).length : Int) ∧
      (((hs_botan_mp_to_dec 255 [0, 0, 0, 0] 1).1.drop (1 : Int).toNat).take
        (hs_botan_mp_to_dec 255 [0, 0, 0, 0] 1).2.toNat = mpDecText 255)) :=
  mp_to_text_reports_exact_count 255 [0, 0, 0, 0] 1 (by norm_num)
    (by decide) (by decide)

/-- C8: verifying a password against the hash generated for it reports
`valid`, and verifying any other password against that hash reports
`invalid`, for every password, RNG handle, and work factor. -/
theorem bcrypt_generate_is_valid (p : List Nat) (rng wf : Nat) :
    hs_botan_bcrypt_is_valid p (hs_botan_bcrypt_generate p rng wf) =
      .valid ∧
    ∀ q : List Nat, q ≠ p →
      hs_botan_bcrypt_is_valid q (hs_botan_bcrypt_generate p rng wf) =
        .invalid := by
  have hsplit : ∀ r : List Nat,
      ((bcryptSalt rng ++ bcryptDigest p (bcryptSalt rng) wf).take
        (bcryptSalt rng).length = bcryptSalt rng) ∧
      ((bcryptSalt rng ++ bcryptDigest p (bcryptSalt rng) wf).drop
        (bcryptSalt rng).length = bcryptDigest p (bcryptSalt rng) wf) :=
    fun _ => ⟨List.take_left' rfl, List.drop_left' rfl⟩
  have hdig : ∀ q : List Nat,
      bcryptDigest q (bcryptSalt rng) (wf % 256) =
        bcryptDigest q (bcryptSalt rng) wf := by
    intro q
    rw [bcryptDigest, bcryptDigest]
    have : wf % 256 % 256 = wf % 256 := by omega
    rw [this]
  constructor
  · rw [hs_botan_bcrypt_generate, hs_botan_bcrypt_is_valid]
    rw [if_pos (by simp [bcryptDigest])]
    rw [(hsplit []).1, (hsplit []).2, hdig p, if_pos rfl]
  · intro q hq
    rw [hs_botan_bcrypt_generate, hs_botan_bcrypt_is_valid]
    rw [if_pos (by simp [bcryptDigest])]
    rw [(hsplit []).1, (hsplit []).2, hdig q]
    rw [if_neg ?_]
    intro heq
    rw [bcryptDigest, bcryptDigest] at heq
    exact hq
      (List.append_cancel_right (List.append_cancel_right heq)).symm

/-- Witness for C8: a wrong password is rejected, via the theorem at
concrete inputs. -/
theorem bcrypt_generate_is_valid_witness :
    hs_botan_bcrypt_is_valid [9, 9] (hs_botan_bcrypt_generate [5, 6] 300 12) =
      .invalid :=
  (bcrypt_generate_is_valid [5, 6] 300 12).2 [9, 9] (by decide)

/-- Replacing one element changes a sum by the difference between the
new and the old element. -/
theorem sum_set_add : ∀ (l : List Nat) (i b : Nat) (h : i < l.length),
    (l.set i b).sum + l[i] = l.sum + b
  | [], i, b, h => by simp at h
  | x :: xs, 0, b, _ => by
    simp [List.sum_cons]
    omega
  | x :: xs, i + 1, b, h => by
    have ih := sum_set_add xs i b (by simpa using h)
    simp only [List.set_cons_succ, List.sum_cons, List.getElem_cons_succ]
    omega

/-- Flipping one byte of the checksummed data changes the checksum. -/
theorem checksum_flip (K : Nat) (l : List Nat) (i b : Nat)
    (hi : i < l.length) (hl : ∀ y ∈ l, y < 256) (hb : b < 256)
    (hne : b ≠ l[i]) :
    (K + (l.set i b).sum) % 256 ≠ (K + l.sum) % 256 := by
  have ha : l[i] < 256 := hl _ (List.getElem_mem hi)
  have hs := sum_set_add l i b hi
  intro h
  omega

/-- `hs_botan_cipher_update` never reports an authentication failure:
tag verification happens only at `finish`. -/
theorem cipher_update_never_auth_failed (c : Cipher) (inp : List Nat)
    (off len : Int) :
    hs_botan_cipher_update c inp off len ≠ .error .authenticationFailed := by
  rw [hs_botan_cipher_update]
  cases hv : checkView inp off len with
  | error e =>
    rw [checkView] at hv
    by_cases hc : off < 0 ∨ len < 0 ∨ ((inp.length : Int) < off + len)
    · rw [if_pos hc] at hv
      simp only [Except.error.injEq] at hv
      subst hv
      simp [bind, Except.bind]
    · rw [if_neg hc] at hv
      exact absurd hv (by simp)
  | ok v =>
    simp only [bind, Except.bind, cipherUpdate]
    by_cases h1 : c.phase ≠ Phase.started ∧ c.phase ≠ Phase.accumulating
    · simp [h1]
    · by_cases h2 : v.length % c.gran ≠ 0
      · simp [h1, h2]
      · cases c.dir <;> simp [h1, h2]

/-- Flipping any single byte of an authenticated blob (ciphertext plus
its tag) makes the stored tag disagree with the tag recomputed over the
stored data. -/
theorem tag_mismatch_of_flip (key nonce ad ct : List Nat) (i b : Nat)
    (hct : ∀ y ∈ ct, y < 256) (hb : b < 256)
    (hi : i < (ct ++ tagOf key nonce ad ct).length)
    (hne : b ≠ (ct ++ tagOf key nonce ad ct)[i]) :
    ((ct ++ tagOf key nonce ad ct).set i b).drop
        (((ct ++ tagOf key nonce ad ct).set i b).length - tagLength) ≠
      tagOf key nonce ad
        (((ct ++ tagOf key nonce ad ct).set i b).take
          (((ct ++ tagOf key nonce ad ct).set i b).length - tagLength)) := by
  have hilen : i < ct.length + 1 := by
    simpa [tagOf] using hi
  have hlen : ((ct ++ tagOf key nonce ad ct).set i b).length =
      ct.length + 1 := by
    simp [tagOf]
  rw [hlen]
  have hsub : ct.length + 1 - tagLength = ct.length := by
    simp [tagLength]
  rw [hsub]
  by_cases hcase : i < ct.length
  · have hne2 : b ≠ ct[i] := by
      rw [List.getElem_append_left hcase] at hne
      exact hne
    rw [List.set_append_left i b hcase,
      List.drop_left' (by simp : (ct.set i b).length = ct.length),
      List.take_left' (by simp : (ct.set i b).length = ct.length)]
    simp only [tagOf, ne_eq, List.cons.injEq, and_true]
    exact fun h =>
      checksum_flip (key.sum + nonce.sum + ad.sum) ct i b hcase hct hb hne2
        h.symm
  · have hieq : i = ct.length := by omega
    subst hieq
    have hne3 : b ≠ (key.sum + nonce.sum + ad.sum + ct.sum) % 256 := by
      rw [List.getElem_append_right (Nat.le_refl ct.length)] at hne
      simpa [tagOf] using hne
    rw [List.set_append_right ct.length b (Nat.le_refl ct.length)]
    have hset : (tagOf key nonce ad ct).set (ct.length - ct.length) b =
        [b] := by
      simp [tagOf]
    rw [hset,
      List.drop_left' (rfl : ct.length = ct.length),
      List.take_left' (rfl : ct.length = ct.length)]
    simpa [tagOf] using hne3

/-- Decryption finalization fails with `AuthenticationFailed` whenever
the stored tag disagrees with the tag recomputed over the data. -/
theorem cipherFinish_decrypt_mismatch (c : Cipher) (input : List Nat)
    (hp : ¬(c.phase ≠ Phase.started ∧ c.phase ≠ Phase.accumulating))
    (hd : c.dir = .decrypt)
    (hlen : ¬((c.acc ++ input).length < tagLength))
    (hmis : (c.acc ++ input).drop ((c.acc ++ input).length - tagLength) ≠
      tagOf c.key c.nonce c.ad
        ((c.acc ++ input).take ((c.acc ++ input).length - tagLength))) :
    cipherFinish c input = .error .authenticationFailed := by
  rw [cipherFinish, if_neg hp]
  simp only [hd]
  rw [if_neg hlen, if_pos hmis]

/-- C9: a ciphertext-plus-tag blob produced by encrypting through
`hs_botan_cipher_update` followed by `hs_botan_cipher_finish`, with any
single byte flipped, is rejected by decryption's
`hs_botan_cipher_finish` with `AuthenticationFailed`; and
`hs_botan_cipher_update` never reports an authentication failure, so the
failure surfaces only at finish. -/
theorem aead_tamper_detected_at_finish
    (key nonce ad ptext : List Nat) (g : Nat) (i b : Nat)
    (c1 c2 : Cipher) (out1 out2 : List Nat) (r1 r2 : Int)
    (hg : ptext.length % g = 0)
    (h1 : hs_botan_cipher_update (mkStarted key nonce ad .encrypt g) ptext 0
      (ptext.length : Int) = .ok (c1, out1, r1))
    (h2 : hs_botan_cipher_finish c1 [] 0 0 = .ok (c2, out2, r2))
    (hi : i < (out1 ++ out2).length) (hb : b < 256)
    (hne : b ≠ (out1 ++ out2)[i]) :
    hs_botan_cipher_finish (mkStarted key nonce ad .decrypt g)
        ((out1 ++ out2).set i b) 0 ((((out1 ++ out2).set i b).length : Int)) =
      .error .authenticationFailed ∧
    ∀ (c : Cipher) (inp : List Nat) (off len : Int),
      hs_botan_cipher_update c inp off len ≠ .error .authenticationFailed := by
  refine ⟨?_, cipher_update_never_auth_failed⟩
  simp [hs_botan_cipher_update, checkView_full, bind, Except.bind,
    cipherUpdate, mkStarted, hg] at h1
  obtain ⟨hc1, hout1, hr1⟩ := h1
  subst hout1
  subst hc1
  simp [hs_botan_cipher_finish, cipherFinish, checkView, bind, Except.bind,
    encBytes] at h2
  obtain ⟨hc2, hout2, hr2⟩ := h2
  have hout2e : out2 = tagOf key nonce ad (encBytes key nonce 0 ptext) := by
    rw [← hout2, tagOf]
  subst hout2e
  rw [hs_botan_cipher_finish, checkView_full]
  have hfin := cipherFinish_decrypt_mismatch
    (mkStarted key nonce ad Dir.decrypt g)
    ((encBytes key nonce 0 ptext ++
      tagOf key nonce ad (encBytes key nonce 0 ptext)).set i b)
    (by simp [mkStarted]) rfl
    (by simp [mkStarted, tagOf, tagLength])
    (by
      simp only [mkStarted, List.nil_append]
      exact tag_mismatch_of_flip key nonce ad (encBytes key nonce 0 ptext) i b
        (encBytes_lt key nonce 0 ptext) hb hi hne)
  exact hfin

/-- Witness for C9 at a concrete encryption: key `[1]`, nonce `[2]`, no
associated data, plaintext `[7, 8]`, whose blob is `[70, 72, 145]`;
flipping byte 0 to 0 is rejected. -/
theorem aead_tamper_detected_at_finish_witness :
    hs_botan_cipher_finish (mkStarted [1] [2] [] .decrypt 1)
        ((([70, 72] : List Nat) ++ [145]).set 0 0) 0
        (((([70, 72] : List Nat) ++ [145]).set 0 0).length : Int) =
      .error .authenticationFailed ∧
    ∀ (c : Cipher) (inp : List Nat) (off len : Int),
      hs_botan_cipher_update c inp off len ≠ .error .authenticationFailed :=
  aead_tamper_detected_at_finish [1] [2] [] [7, 8] 1 0 0
    { mkStarted [1] [2] [] .encrypt 1 with phase := .accumulating, acc := [70, 72] }
    { mkStarted [1] [2] [] .encrypt 1 with phase := .finished, acc := [70, 72] }
    [70, 72] [145] 2 1 rfl rfl rfl (by decide) (by decide) (by decide)
